import Mathlib

/-!
Verification of the wmfocus core algorithms against their natural-language
specification.  The definitions below are shallow embeddings of the Rust
source (`src/utils.rs`, `src/main.rs`):

* `intersects`, `find_overlaps`, `sort_by_pos`, `get_next_hint` are translated
  from `src/utils.rs`;
* the hint-generation loop and the overlap nudge loop are translated from
  `main` in `src/main.rs`;
* the `Sequence` key-chord type and the helpers `remove_last_key` /
  `Sequence.is_started` are referenced by `src/main.rs` and `src/args.rs` but
  their definitions are not part of the source tree provided, so they are
  modelled from the specification (each such definition is marked).

Rust `i32`/`i16` coordinate arithmetic is embedded as `Int` (overflow is a
program error in Rust and never reached at screen coordinates); `usize`
counts become `Nat`.  The unbounded `while` loops of the source (the hint
size loop and the nudge loop) are embedded with explicit fuel so that
divergence is observable as fuel exhaustion.
-/

/-- Result of running a piece of Rust code that may panic (`expect`) or fail
to terminate (modelled as running out of fuel). -/
inductive RunResult (α : Type) where
  | ok : α → RunResult α
  | panic : RunResult α
  | fuelOut : RunResult α
deriving DecidableEq, Repr

/-! ## Rectangles and overlap (from `src/utils.rs`) -/

/-- A rectangle `(x, y, w, h)`, the tuple `(i32, i32, i32, i32)` of the
source. -/
structure Rect where
  x : Int
  y : Int
  w : Int
  h : Int
deriving DecidableEq, Repr

/-- Embedding of `utils::intersects`: true if `r1` and `r2` overlap, using
the four strict comparisons of the source. -/
def intersects (r1 r2 : Rect) : Bool :=
  let left_corner_inside := decide (r1.x < r2.x + r2.w)
  let right_corner_inside := decide (r1.x + r1.w > r2.x)
  let top_corner_inside := decide (r1.y < r2.y + r2.h)
  let bottom_corner_inside := decide (r1.y + r1.h > r2.y)
  left_corner_inside && right_corner_inside && top_corner_inside && bottom_corner_inside

/-- Embedding of `utils::find_overlaps`: the rects of the already placed
render windows that intersect `rect`, in iteration order.  (The source
iterates the `rect` fields of a `Vec<&RenderWindow>`; we pass the rects
directly.) -/
def find_overlaps (rws : List Rect) (rect : Rect) : List Rect :=
  rws.filter (fun rw => intersects rw rect)

/-- Embedding of the nudge loop of `main` (`src/main.rs`): while
`find_overlaps` is non-empty, pop the last overlap (`Vec::pop`) and shift the
candidate right by its width, then recompute.  `fuel` bounds the number of
iterations; the source loop is unbounded. -/
def nudgeLoop (existing : List Rect) : Rect → Nat → Option Rect
  | _, 0 => none
  | r, fuel + 1 =>
    match (find_overlaps existing r).getLast? with
    | none => some r
    | some o => nudgeLoop existing { r with x := r.x + o.w } fuel

/-- One iteration of the nudge loop as a total step function (identity once
no overlap remains); used to reason about the loop without fuel. -/
def nudgeStep (existing : List Rect) (r : Rect) : Rect :=
  match (find_overlaps existing r).getLast? with
  | none => r
  | some o => { r with x := r.x + o.w }

/-- The candidate rectangle after `k` iterations of the nudge loop. -/
def nudgeIter (existing : List Rect) (r : Rect) : Nat → Rect
  | 0 => r
  | k + 1 => nudgeIter existing (nudgeStep existing r) k

/-! ## Claim C3: the intersection predicate -/

/-- C3: `intersects r1 r2` is true iff both spans strictly overlap; edge
contact (second rectangle starting exactly at the first one's right edge)
does not intersect; and the two literal regression cases of the source test
suite evaluate as the spec states. -/
theorem intersects_spec :
    (∀ r1 r2 : Rect, intersects r1 r2 = true ↔
      (r1.x < r2.x + r2.w ∧ r1.x + r1.w > r2.x ∧ r1.y < r2.y + r2.h ∧ r1.y + r1.h > r2.y)) ∧
    (∀ x1 y1 w1 h1 y2 w2 h2 : Int,
      intersects ⟨x1, y1, w1, h1⟩ ⟨x1 + w1, y2, w2, h2⟩ = false) ∧
    intersects ⟨1905, 705, 31, 82⟩ ⟨1905, 723, 38, 64⟩ = true ∧
    intersects ⟨1905, 705, 31, 82⟩ ⟨2000, 723, 38, 64⟩ = false := by
  refine ⟨fun r1 r2 => ?_, fun x1 y1 w1 h1 y2 w2 h2 => ?_, by decide, by decide⟩
  · simp [intersects, and_assoc]
  · simp [intersects]

/-! ## Claim C4: one nudge step and the concrete nudge scenario -/

/-- C4: each iteration of the nudge loop shifts the candidate right by
exactly the width of the popped (last) overlapping rectangle and recomputes;
on existing `(0,0,50,20)` and candidate `(10,5,50,20)` the loop ends at
`(60,5,50,20)`, which no longer overlaps. -/
theorem nudge_step_and_example :
    (∀ (ex : List Rect) (r o : Rect) (os : List Rect) (fuel : Nat),
      find_overlaps ex r = os ++ [o] →
      nudgeLoop ex r (fuel + 1) = nudgeLoop ex { r with x := r.x + o.w } fuel) ∧
    nudgeLoop [⟨0, 0, 50, 20⟩] ⟨10, 5, 50, 20⟩ 2 = some ⟨60, 5, 50, 20⟩ ∧
    find_overlaps [⟨0, 0, 50, 20⟩] ⟨60, 5, 50, 20⟩ = [] := by
  refine ⟨fun ex r o os fuel hfo => ?_, by decide, by decide⟩
  simp [nudgeLoop, hfo]

/-- Witness for the hypothesis of the step part of `nudge_step_and_example`,
at the concrete C4 scenario. -/
theorem nudge_step_and_example_witness :
    nudgeLoop [⟨0, 0, 50, 20⟩] ⟨10, 5, 50, 20⟩ 2 =
      nudgeLoop [⟨0, 0, 50, 20⟩] ⟨60, 5, 50, 20⟩ 1 :=
  nudge_step_and_example.1 [⟨0, 0, 50, 20⟩] ⟨10, 5, 50, 20⟩ ⟨0, 0, 50, 20⟩ [] 1 (by decide)

/-! ## Claim C5: termination of the nudge loop -/

/-- With a zero-width existing rectangle the nudge shift is zero, so the loop
never makes progress: every fuel bound is exhausted. -/
theorem nudgeLoop_zero_width_none (fuel : Nat) :
    nudgeLoop [⟨1, 0, 0, 5⟩] ⟨0, 0, 3, 3⟩ fuel = none := by
  induction fuel with
  | zero => rfl
  | succ n ih =>
    have h1 : (find_overlaps [⟨1, 0, 0, 5⟩] ⟨0, 0, 3, 3⟩).getLast? =
        some ⟨1, 0, 0, 5⟩ := by decide
    have h2 : ({ x := (0 : Int) + 0, y := 0, w := 3, h := 3 } : Rect) = ⟨0, 0, 3, 3⟩ := by
      decide
    simp only [nudgeLoop, h1]
    rw [show ({ (⟨0, 0, 3, 3⟩ : Rect) with x := (0 : Int) + (0 : Int) } : Rect) =
        (⟨0, 0, 3, 3⟩ : Rect) from h2]
    exact ih

/-- The zero-width scenario is a fixed point of the nudge step. -/
theorem nudgeIter_zero_width_fixed (k : Nat) :
    nudgeIter [⟨1, 0, 0, 5⟩] ⟨0, 0, 3, 3⟩ k = ⟨0, 0, 3, 3⟩ := by
  induction k with
  | zero => rfl
  | succ n ih =>
    have hstep : nudgeStep [⟨1, 0, 0, 5⟩] ⟨0, 0, 3, 3⟩ = ⟨0, 0, 3, 3⟩ := by decide
    simp only [nudgeIter, hstep]
    exact ih

/-- C5 counterexample: with existing rectangle `(1,0,0,5)` (width `0`) and
candidate `(0,0,3,3)` the nudge loop never terminates: the shift is `0`, the
candidate never changes, and an overlap always remains.  The claim, as
stated over every set of rectangles, is false. -/
theorem nudge_termination_counterexample :
    (¬ ∃ fuel r2, nudgeLoop [⟨1, 0, 0, 5⟩] ⟨0, 0, 3, 3⟩ fuel = some r2) ∧
    (¬ ∃ k, find_overlaps [⟨1, 0, 0, 5⟩] (nudgeIter [⟨1, 0, 0, 5⟩] ⟨0, 0, 3, 3⟩ k) = []) := by
  constructor
  · rintro ⟨fuel, r2, h⟩
    rw [nudgeLoop_zero_width_none fuel] at h
    exact Option.noConfusion h
  · rintro ⟨k, hk⟩
    rw [nudgeIter_zero_width_fixed k] at hk
    exact absurd hk (by decide)

/-- Upper bound on the right edges of a list of rectangles. -/
def maxRight (ex : List Rect) : Int :=
  (ex.map (fun e => e.x + e.w)).foldr max 0

theorem le_maxRight : ∀ {ex : List Rect} {e : Rect}, e ∈ ex → e.x + e.w ≤ maxRight ex := by
  intro ex
  induction ex with
  | nil => intro e he; cases he
  | cons a t ih =>
    intro e he
    rcases List.mem_cons.mp he with rfl | he
    · exact le_max_left _ _
    · exact (ih he).trans (le_max_right _ _)

theorem mem_of_getLast_eq_some {α : Type} {l : List α} {a : α}
    (h : l.getLast? = some a) : a ∈ l := by
  obtain ⟨hne, rfl⟩ :=
    List.mem_getLast?_eq_getLast (show a ∈ l.getLast? from Option.mem_def.mpr h)
  exact List.getLast_mem hne

theorem nudge_terminates_aux (ex : List Rect) (hw : ∀ e ∈ ex, 1 ≤ e.w) :
    ∀ (n : Nat) (c : Rect), (maxRight ex - c.x).toNat ≤ n →
      ∃ r2, nudgeLoop ex c (n + 1) = some r2 ∧ find_overlaps ex r2 = [] := by
  intro n
  induction n with
  | zero =>
    intro c hc
    match hlast : (find_overlaps ex c).getLast? with
    | none =>
      refine ⟨c, ?_, ?_⟩
      · simp only [nudgeLoop, hlast]
      · cases hfo : find_overlaps ex c with
        | nil => rfl
        | cons a t =>
          rw [hfo] at hlast
          simp [List.getLast?] at hlast
    | some o =>
      exfalso
      have ho : o ∈ find_overlaps ex c := mem_of_getLast_eq_some hlast
      have hmem : o ∈ ex := (List.mem_filter.mp ho).1
      have hint : intersects o c = true := by
        have := (List.mem_filter.mp ho).2
        simpa using this
      have hx : c.x < o.x + o.w := by
        simp only [intersects, Bool.and_eq_true, decide_eq_true_eq] at hint
        omega
      have hxM : c.x < maxRight ex := lt_of_lt_of_le hx (le_maxRight hmem)
      have h0 : 0 < (maxRight ex - c.x).toNat := by
        rw [Int.lt_toNat]
        omega
      omega
  | succ m ih =>
    intro c hc
    match hlast : (find_overlaps ex c).getLast? with
    | none =>
      refine ⟨c, ?_, ?_⟩
      · simp only [nudgeLoop, hlast]
      · cases hfo : find_overlaps ex c with
        | nil => rfl
        | cons a t =>
          rw [hfo] at hlast
          simp [List.getLast?] at hlast
    | some o =>
      have ho : o ∈ find_overlaps ex c := mem_of_getLast_eq_some hlast
      have hmem : o ∈ ex := (List.mem_filter.mp ho).1
      have hint : intersects o c = true := by
        have := (List.mem_filter.mp ho).2
        simpa using this
      have hx : c.x < o.x + o.w := by
        simp only [intersects, Bool.and_eq_true, decide_eq_true_eq] at hint
        omega
      have hxM : c.x < maxRight ex := lt_of_lt_of_le hx (le_maxRight hmem)
      have hwo : 1 ≤ o.w := hw o hmem
      have hmeas : (maxRight ex - (c.x + o.w)).toNat ≤ m := by
        omega
      obtain ⟨r2, hr2, hfo2⟩ := ih { c with x := c.x + o.w } hmeas
      refine ⟨r2, ?_, hfo2⟩
      simp only [nudgeLoop, hlast]
      exact hr2

/-- C5 amended: when every already-placed rectangle has positive width (which
holds for every non-degenerate hint box the program places), the nudge loop
terminates at a candidate that overlaps no existing rectangle. -/
theorem nudge_terminates (ex : List Rect) (c : Rect) (hw : ∀ e ∈ ex, 1 ≤ e.w) :
    ∃ fuel r2, nudgeLoop ex c fuel = some r2 ∧ find_overlaps ex r2 = [] := by
  obtain ⟨r2, h1, h2⟩ :=
    nudge_terminates_aux ex hw (maxRight ex - c.x).toNat c le_rfl
  exact ⟨(maxRight ex - c.x).toNat + 1, r2, h1, h2⟩

/-- Witness for `nudge_terminates` at the concrete C4 scenario. -/
theorem nudge_terminates_witness :
    ∃ fuel r2, nudgeLoop [⟨0, 0, 50, 20⟩] ⟨10, 5, 50, 20⟩ fuel = some r2 ∧
      find_overlaps [⟨0, 0, 50, 20⟩] r2 = [] :=
  nudge_terminates [⟨0, 0, 50, 20⟩] ⟨10, 5, 50, 20⟩ (by decide)

/-! ## Hint generation (from `utils::get_next_hint` and `main` in `src/main.rs`) -/

/-- Embedding of the hint size loop of `get_next_hint`:
`size_required = 1; while hint_chars.len()^size_required < max_count
\x7b size_required += 1 \x7d`, with explicit fuel (the source loop is
unbounded and diverges for alphabets of size at most one). -/
def sizeRequiredFrom (a n : Nat) : Nat → Nat → Option Nat
  | _, 0 => none
  | L, fuel + 1 => if a ^ L < n then sizeRequiredFrom a n (L + 1) fuel else some L

/-- The `multi_cartesian_product` of a list of character lists, in itertools
order: the first factor varies slowest. -/
def listProduct : List (List Char) → List (List Char)
  | [] => [[]]
  | l :: ls => l.flatMap (fun c => (listProduct ls).map (fun t => c :: t))

/-- The candidate enumeration of `get_next_hint`:
`iter::repeat(hint_chars.chars().rev()).take(size_required).multi_cartesian_product()`,
each candidate collected into a string. -/
def hintCandidates (hint_chars : List Char) (L : Nat) : List String :=
  (listProduct (List.replicate L hint_chars.reverse)).map String.mk

/-- Embedding of `utils::get_next_hint`.  The alphabet is the character list
of the `hint_chars` string.  `.panic` models the `expect` on an empty
alphabet, `.fuelOut` models divergence of the size loop.  The fold keeps
overwriting `ret` with every unused candidate, exactly as the source loop
does. -/
def get_next_hint (current_hints : List String) (hint_chars : List Char)
    (max_count : Nat) (fuel : Nat) : RunResult String :=
  match sizeRequiredFrom hint_chars.length max_count 1 fuel with
  | none => .fuelOut
  | some size_required =>
    match hint_chars with
    | [] => .panic
    | c :: _ =>
      .ok ((hintCandidates hint_chars size_required).foldl
        (fun ret folded => if folded ∈ current_hints then ret else folded)
        (String.mk [c]))

/-- The hint-assignment loop of `main` (`src/main.rs`): once per window, call
`get_next_hint` with the hints generated so far and `max_count` equal to the
total window count, and record the result.  (The source keeps the hints as
the keys of a hash map; only membership is ever consulted, so a list in
generation order is an equivalent embedding.) -/
def generateHintsAux (hint_chars : List Char) (n fuel : Nat) :
    Nat → List String → RunResult (List String)
  | 0, acc => .ok acc
  | k + 1, acc =>
    match get_next_hint acc hint_chars n fuel with
    | .ok h => generateHintsAux hint_chars n fuel k (acc ++ [h])
    | .panic => .panic
    | .fuelOut => .fuelOut

/-- Hints for `n` windows: `n` calls of `get_next_hint`, fuel `n` for the
size loop (enough whenever the alphabet has at least two characters). -/
def generateHints (hint_chars : List Char) (n : Nat) : RunResult (List String) :=
  generateHintsAux hint_chars n n n []

theorem foldl_last_unused (hs : List String) (init : String) (l : List String) :
    l.foldl (fun ret folded => if folded ∈ hs then ret else folded) init =
      ((l.filter (fun s => decide (s ∉ hs))).getLast?).getD init := by
  induction l using List.reverseRecOn with
  | nil => rfl
  | append_singleton l x ih =>
    rw [List.foldl_append, List.filter_append]
    by_cases hx : x ∈ hs
    · simp [hx, ih]
    · simp [hx, List.getLast?_concat]

theorem sizeRequiredFrom_spec :
    ∀ (fuel L0 L a n : Nat), sizeRequiredFrom a n L0 fuel = some L →
      L0 ≤ L ∧ n ≤ a ^ L ∧ ∀ L2, L0 ≤ L2 → L2 < L → a ^ L2 < n := by
  intro fuel
  induction fuel with
  | zero => intro L0 L a n h; cases h
  | succ f ih =>
    intro L0 L a n h
    simp only [sizeRequiredFrom] at h
    by_cases hc : a ^ L0 < n
    · rw [if_pos hc] at h
      obtain ⟨h1, h2, h3⟩ := ih (L0 + 1) L a n h
      refine ⟨by omega, h2, ?_⟩
      intro L2 hL2 hL2'
      rcases eq_or_lt_of_le hL2 with rfl | h4
      · exact hc
      · exact h3 L2 (by omega) hL2'
    · rw [if_neg hc] at h
      injection h with h
      subst h
      exact ⟨le_rfl, by omega, fun L2 h1 h2 => absurd h2 (by omega)⟩

theorem sizeRequiredFrom_isSome :
    ∀ (fuel L0 M a n : Nat), L0 ≤ M → M < L0 + fuel → n ≤ a ^ M →
      ∃ L, sizeRequiredFrom a n L0 fuel = some L := by
  intro fuel
  induction fuel with
  | zero => intro L0 M a n h1 h2 h3; omega
  | succ f ih =>
    intro L0 M a n h1 h2 h3
    simp only [sizeRequiredFrom]
    by_cases hc : a ^ L0 < n
    · rw [if_pos hc]
      have hne : L0 ≠ M := by
        rintro rfl
        omega
      exact ih (L0 + 1) M a n (by omega) (by omega) h3
    · rw [if_neg hc]
      exact ⟨L0, rfl⟩

theorem listProduct_replicate_length (r : List Char) (L : Nat) :
    (listProduct (List.replicate L r)).length = r.length ^ L := by
  induction L with
  | zero => rfl
  | succ m ih =>
    simp [List.replicate_succ, listProduct, List.length_flatMap, ih, pow_succ,
      Nat.mul_comm, Function.comp_def]

theorem length_of_mem_listProduct_replicate :
    ∀ {L : Nat} {r t : List Char}, t ∈ listProduct (List.replicate L r) → t.length = L := by
  intro L
  induction L with
  | zero =>
    intro r t h
    simp [listProduct] at h
    subst h
    rfl
  | succ m ih =>
    intro r t h
    simp only [List.replicate_succ, listProduct, List.mem_flatMap, List.mem_map] at h
    obtain ⟨c, _, t2, ht2, rfl⟩ := h
    simp [ih ht2]

theorem listProduct_replicate_nodup {r : List Char} (hr : r.Nodup) (L : Nat) :
    (listProduct (List.replicate L r)).Nodup := by
  induction L with
  | zero => simp [listProduct]
  | succ m ih =>
    simp only [List.replicate_succ, listProduct]
    rw [List.nodup_flatMap]
    constructor
    · intro c _
      exact ih.map (fun t1 t2 h => by injection h)
    · refine hr.imp ?_
      intro c1 c2 hne
      intro t h1 h2
      simp only [List.mem_map] at h1 h2
      obtain ⟨u1, _, rfl⟩ := h1
      obtain ⟨u2, _, h⟩ := h2
      injection h with h
      exact hne h.symm

theorem string_mk_injective : Function.Injective String.mk := by
  intro a b h
  injection h

theorem hintCandidates_length (chars : List Char) (L : Nat) :
    (hintCandidates chars L).length = chars.length ^ L := by
  simp [hintCandidates, listProduct_replicate_length]

theorem hintCandidates_nodup {chars : List Char} (h : chars.Nodup) (L : Nat) :
    (hintCandidates chars L).Nodup :=
  (listProduct_replicate_nodup (List.nodup_reverse.mpr h) L).map string_mk_injective

theorem length_of_mem_hintCandidates {chars : List Char} {L : Nat} {s : String}
    (h : s ∈ hintCandidates chars L) : s.length = L := by
  simp only [hintCandidates, List.mem_map] at h
  obtain ⟨t, ht, rfl⟩ := h
  exact length_of_mem_listProduct_replicate ht

theorem get_next_hint_eq (current : List String) (c0 : Char) (cs : List Char)
    (n fuel L : Nat) (hL : sizeRequiredFrom (c0 :: cs).length n 1 fuel = some L) :
    get_next_hint current (c0 :: cs) n fuel =
      .ok ((((hintCandidates (c0 :: cs) L).filter
        (fun s => decide (s ∉ current))).getLast?).getD (String.mk [c0])) := by
  simp only [get_next_hint, hL]
  rw [foldl_last_unused]

theorem generateHintsAux_run (chars : List Char) (c0 : Char) (cs : List Char)
    (hchars : chars = c0 :: cs) (n fuel L : Nat)
    (hL : sizeRequiredFrom chars.length n 1 fuel = some L)
    (hnd : (hintCandidates chars L).Nodup) :
    ∀ (k : Nat) (B D : List String), hintCandidates chars L = B ++ D → k ≤ B.length →
      generateHintsAux chars n fuel k D.reverse =
        .ok ((B.drop (B.length - k) ++ D).reverse) := by
  subst hchars
  intro k
  induction k with
  | zero =>
    intro B D hBD hk
    simp [generateHintsAux, List.drop_length]
  | succ m ih =>
    intro B D hBD hk
    rcases List.eq_nil_or_concat' B with rfl | ⟨B2, b, rfl⟩
    · simp at hk
    · have hm : m ≤ B2.length := by
        simp at hk
        omega
      have hfilter : (hintCandidates (c0 :: cs) L).filter
          (fun s => decide (s ∉ D.reverse)) = B2 ++ [b] := by
        rw [hBD, List.filter_append]
        have hdisj : List.Disjoint (B2 ++ [b]) D :=
          List.disjoint_of_nodup_append (hBD ▸ hnd)
        rw [List.filter_eq_self.mpr, List.filter_eq_nil_iff.mpr]
        · simp
        · intro s hs
          simp only [decide_eq_true_eq, not_not]
          simp [List.mem_reverse, hs]
        · intro s hs
          simp only [decide_eq_true_eq]
          intro hsD
          exact hdisj hs (List.mem_reverse.mp hsD)
      have hgnh : get_next_hint D.reverse (c0 :: cs) n fuel = .ok b := by
        rw [get_next_hint_eq D.reverse c0 cs n fuel L hL, hfilter, List.getLast?_concat]
        rfl
      simp only [generateHintsAux, hgnh]
      have hrev : D.reverse ++ [b] = (b :: D).reverse := by simp
      rw [hrev]
      have h2 : hintCandidates (c0 :: cs) L = B2 ++ (b :: D) := by
        rw [hBD]
        simp
      rw [ih B2 (b :: D) h2 hm]
      have hgoal : (B2 ++ [b]).drop ((B2 ++ [b]).length - (m + 1)) ++ D =
          B2.drop (B2.length - m) ++ (b :: D) := by
        have hidx : (B2 ++ [b]).length - (m + 1) = B2.length - m := by
          simp
        rw [hidx, List.drop_append_of_le_length (by omega)]
        simp
      rw [hgoal]

/-! ## Claim C1: the generated hints are distinct and of uniform length -/

/-- C1 amended: for `n ≥ 1` windows and a duplicate-free alphabet of size at
least `2`, the generation loop produces `n` pairwise distinct hints, all of
length `max 1 (clog a n)` — the smallest positive `L` with `a ^ L ≥ n`.  (The
claim's `L = ceil(log_a n)` is off by one at `n = 1`, where the source's size
loop starts at `1` and produces single-character hints although
`ceil(log_a 1) = 0`.) -/
theorem generateHints_spec (chars : List Char) (n : Nat)
    (hnd : chars.Nodup) (ha : 2 ≤ chars.length) (hn : 1 ≤ n) :
    ∃ hints : List String,
      generateHints chars n = .ok hints ∧ hints.length = n ∧ hints.Nodup ∧
      ∀ h ∈ hints, h.length = max 1 (Nat.clog chars.length n) := by
  obtain ⟨c0, cs, hchars⟩ : ∃ c0 cs, chars = c0 :: cs := by
    cases chars with
    | nil => simp at ha
    | cons c0 cs => exact ⟨c0, cs, rfl⟩
  have ha1 : 1 < chars.length := ha
  have hpow : n ≤ chars.length ^ n :=
    le_trans (Nat.le_of_lt (Nat.lt_two_pow n)) (Nat.pow_le_pow_left ha n)
  obtain ⟨L, hL⟩ := sizeRequiredFrom_isSome n 1 n chars.length n hn (by omega) hpow
  obtain ⟨hL1, hLn, hLmin⟩ := sizeRequiredFrom_spec n 1 L chars.length n hL
  have hCnd : (hintCandidates chars L).Nodup := hintCandidates_nodup hnd L
  have hnC : n ≤ (hintCandidates chars L).length := by
    rw [hintCandidates_length]
    exact hLn
  have hrun := generateHintsAux_run chars c0 cs hchars n n L hL hCnd n
    (hintCandidates chars L) [] (by simp) hnC
  have hLmax : L = max 1 (Nat.clog chars.length n) := by
    have hclog_le : Nat.clog chars.length n ≤ L := (Nat.le_pow_iff_clog_le ha1).mp hLn
    refine le_antisymm ?_ (Nat.max_le.mpr ⟨hL1, hclog_le⟩)
    by_contra hlt
    push_neg at hlt
    have hsm := hLmin (max 1 (Nat.clog chars.length n)) (le_max_left _ _) hlt
    have hble : n ≤ chars.length ^ max 1 (Nat.clog chars.length n) :=
      le_trans (Nat.le_pow_clog ha1 n)
        (Nat.pow_le_pow_right (by omega) (le_max_right _ _))
    omega
  refine ⟨((hintCandidates chars L).drop ((hintCandidates chars L).length - n)).reverse,
    ?_, ?_, ?_, ?_⟩
  · unfold generateHints
    simpa using hrun
  · simp only [List.length_reverse, List.length_drop]
    omega
  · exact List.nodup_reverse.mpr ((List.drop_sublist _ _).nodup hCnd)
  · intro h hh
    have hmem : h ∈ hintCandidates chars L :=
      List.mem_of_mem_drop (List.mem_reverse.mp hh)
    rw [length_of_mem_hintCandidates hmem]
    exact hLmax

/-- C1 counterexample: at `n = 1` over alphabet `ab` the program produces the
single hint `"a"`, of length `1`, while `ceil(log_2 1) = 0`: the claimed
length formula fails for one window. -/
theorem generateHints_clog_counterexample :
    generateHints ['a', 'b'] 1 = .ok ["a"] ∧
    ¬ (("a" : String).length = Nat.clog 2 1) := by
  constructor
  · decide
  · rw [Nat.clog_one_right]
    decide

/-- Witness for `generateHints_spec` at three windows over alphabet `ab`. -/
theorem generateHints_spec_witness :
    ∃ hints : List String,
      generateHints ['a', 'b'] 3 = .ok hints ∧ hints.length = 3 ∧ hints.Nodup ∧
      ∀ h ∈ hints, h.length = max 1 (Nat.clog 2 3) :=
  generateHints_spec ['a', 'b'] 3 (by decide) (by decide) (by decide)

/-! ## Claim C2: the last unused candidate wins -/

/-- C2 amended: whenever the size loop terminates with length `L` (any
non-empty alphabet for which some `L ≥ 1` has `a ^ L ≥ max_count`),
`get_next_hint` returns the LAST candidate of the reversed-alphabet `L`-fold
product enumeration that is not in the existing-hints set — and when every
candidate is already used it falls back to the initial value, the
one-character string of the alphabet's first character, which may itself be
in the existing set (so the claim's unconditional "returns a candidate not
already in the set" needs the proviso that an unused candidate exists). -/
theorem get_next_hint_last_unused (current : List String) (c0 : Char) (cs : List Char)
    (n fuel L : Nat)
    (hL : sizeRequiredFrom (c0 :: cs).length n 1 fuel = some L) :
    get_next_hint current (c0 :: cs) n fuel =
      .ok ((((hintCandidates (c0 :: cs) L).filter
        (fun s => decide (s ∉ current))).getLast?).getD (String.mk [c0])) ∧
    ∀ r, ((hintCandidates (c0 :: cs) L).filter
        (fun s => decide (s ∉ current))).getLast? = some r → r ∉ current := by
  refine ⟨get_next_hint_eq current c0 cs n fuel L hL, ?_⟩
  intro r hr
  have hmem := mem_of_getLast_eq_some hr
  have hfil := (List.mem_filter.mp hmem).2
  simpa using hfil

/-- Witness for `get_next_hint_last_unused`: alphabet `ab`, three windows,
`"aa"` already used; the returned hint is the last unused candidate. -/
theorem get_next_hint_last_unused_witness :
    get_next_hint ["aa"] ['a', 'b'] 3 3 =
      .ok ((((hintCandidates ['a', 'b'] 2).filter
        (fun s => decide (s ∉ (["aa"] : List String)))).getLast?).getD (String.mk ['a'])) ∧
    ∀ r, ((hintCandidates ['a', 'b'] 2).filter
        (fun s => decide (s ∉ (["aa"] : List String)))).getLast? = some r →
      r ∉ (["aa"] : List String) :=
  get_next_hint_last_unused ["aa"] 'a' ['b'] 3 3 2 (by decide)

/-- C2 counterexample: single-character alphabet `a`, `max_count = 1`, and
the single candidate `"a"` already used: the function still returns `"a"`
(the initial value), which IS in the existing-hints set, although no unused
candidate exists — the claim's unconditional description fails here. -/
theorem get_next_hint_all_used_counterexample :
    get_next_hint ["a"] ['a'] 1 1 = .ok "a" ∧
    ("a" : String) ∈ (["a"] : List String) ∧
    (hintCandidates ['a'] 1).filter (fun s => decide (s ∉ (["a"] : List String))) = [] := by
  refine ⟨by decide, by decide, by decide⟩

/-! ## Claim C8: empty alphabet -/

theorem sizeRequiredFrom_zero_base_none :
    ∀ (fuel L0 n : Nat), 1 ≤ L0 → sizeRequiredFrom 0 (n + 1) L0 fuel = none := by
  intro fuel
  induction fuel with
  | zero => intro L0 n h; rfl
  | succ g ih =>
    intro L0 n h
    simp only [sizeRequiredFrom]
    rw [if_pos]
    · exact ih (L0 + 1) n (by omega)
    · rw [Nat.zero_pow (by omega)]
      omega

/-- C8: with an empty alphabet `get_next_hint` does not fail with a
configuration error as the spec requires.  For `max_count = 0` it panics
(the `expect` on `hint_chars.chars().next()`); for every `max_count ≥ 1`
the size loop `0 ^ L < max_count` never exits, so the call diverges (every
fuel bound is exhausted). -/
theorem get_next_hint_empty_alphabet :
    get_next_hint [] [] 0 1 = .panic ∧
    ∀ (fuel n : Nat) (current : List String),
      get_next_hint current [] (n + 1) fuel = .fuelOut := by
  constructor
  · decide
  · intro fuel n current
    simp only [get_next_hint, List.length_nil,
      sizeRequiredFrom_zero_base_none fuel 1 n le_rfl]

/-! ## Desktop windows and `sort_by_pos` (from `src/main.rs`, `src/utils.rs`) -/

/-- The `DesktopWindow` struct of `src/main.rs`: manager id, optional native
window-system id, position, size, focus flag. -/
structure DesktopWindow where
  id : Int
  x_window_id : Option Int
  pos : Int × Int
  size : Int × Int
  is_focused : Bool
deriving DecidableEq, Repr

/-- Key order of the first sort of `sort_by_pos`: by `pos.0`. -/
def leXpos (w v : DesktopWindow) : Prop := w.pos.1 ≤ v.pos.1

/-- Key order of the second sort of `sort_by_pos`: by `pos.1`. -/
def leYpos (w v : DesktopWindow) : Prop := w.pos.2 ≤ v.pos.2

instance : DecidableRel leXpos := fun w v => inferInstanceAs (Decidable (w.pos.1 ≤ v.pos.1))

instance : DecidableRel leYpos := fun w v => inferInstanceAs (Decidable (w.pos.2 ≤ v.pos.2))

instance : IsTotal DesktopWindow leXpos := ⟨fun a b => le_total a.pos.1 b.pos.1⟩

instance : IsTotal DesktopWindow leYpos := ⟨fun a b => le_total a.pos.2 b.pos.2⟩

instance : IsTrans DesktopWindow leXpos := ⟨fun _ _ _ h1 h2 => le_trans h1 h2⟩

instance : IsTrans DesktopWindow leYpos := ⟨fun _ _ _ h1 h2 => le_trans h1 h2⟩

/-- Embedding of `utils::sort_by_pos`: `dws.sort_by_key(|w| w.pos.0)` then
`dws.sort_by_key(|w| w.pos.1)`.  Rust's `sort_by_key` is a stable sort, as
is `List.insertionSort` (equal-key elements keep their relative order), so
the composition is the same stable double sort. -/
def sort_by_pos (dws : List DesktopWindow) : List DesktopWindow :=
  List.insertionSort leYpos (List.insertionSort leXpos dws)

/-- Row-major order: ascending `y`, ties broken by ascending `x`. -/
def lexYX (w v : DesktopWindow) : Prop :=
  w.pos.2 < v.pos.2 ∨ (w.pos.2 = v.pos.2 ∧ w.pos.1 ≤ v.pos.1)

theorem pairwise_lex_orderedInsert (a : DesktopWindow) :
    ∀ l : List DesktopWindow, l.Pairwise lexYX →
      (∀ b ∈ l, a.pos.2 = b.pos.2 → a.pos.1 ≤ b.pos.1) →
      (List.orderedInsert leYpos a l).Pairwise lexYX := by
  intro l
  induction l with
  | nil =>
    intro _ _
    simp [List.orderedInsert]
  | cons b t ih =>
    intro hl ha
    obtain ⟨hbt, ht⟩ := List.pairwise_cons.mp hl
    simp only [List.orderedInsert]
    by_cases hab : leYpos a b
    · rw [if_pos hab]
      refine List.Pairwise.cons ?_ hl
      intro c hc
      rcases List.mem_cons.mp hc with rfl | hc
      · rcases lt_or_eq_of_le hab with h | h
        · exact Or.inl h
        · exact Or.inr ⟨h, ha c (List.mem_cons_self _ _) h⟩
      · rcases hbt c hc with h | ⟨h1, _⟩
        · exact Or.inl (lt_of_le_of_lt hab h)
        · rcases lt_or_eq_of_le hab with h2 | h2
          · exact Or.inl (h2.trans_eq h1)
          · exact Or.inr ⟨h2.trans h1, ha c (List.mem_cons_of_mem b hc) (h2.trans h1)⟩
    · rw [if_neg hab]
      have hba : b.pos.2 < a.pos.2 := lt_of_not_le hab
      refine List.Pairwise.cons ?_
        (ih ht (fun c hc h => ha c (List.mem_cons_of_mem b hc) h))
      intro c hc
      rcases (List.mem_orderedInsert leYpos).mp hc with rfl | hc
      · exact Or.inl hba
      · exact hbt c hc

theorem pairwise_lex_insertionSort :
    ∀ l : List DesktopWindow, l.Pairwise leXpos →
      (List.insertionSort leYpos l).Pairwise lexYX := by
  intro l
  induction l with
  | nil =>
    intro _
    simp [List.insertionSort]
  | cons a t ih =>
    intro h
    obtain ⟨hat, ht⟩ := List.pairwise_cons.mp h
    simp only [List.insertionSort]
    refine pairwise_lex_orderedInsert a _ (ih ht) ?_
    intro b hb _
    exact hat b ((List.perm_insertionSort leYpos t).mem_iff.mp hb)

/-! ## Claim C10: `sort_by_pos` is a stable row-major sort -/

/-- C10: `sort_by_pos` returns a permutation of its input ordered primarily
by ascending `y` and secondarily by ascending `x`: the second, stable sort by
`y` preserves the prior sort by `x` among equal `y`. -/
theorem sort_by_pos_spec (dws : List DesktopWindow) :
    List.Perm (sort_by_pos dws) dws ∧
    (sort_by_pos dws).Pairwise (fun w v =>
      w.pos.2 < v.pos.2 ∨ (w.pos.2 = v.pos.2 ∧ w.pos.1 ≤ v.pos.1)) := by
  constructor
  · exact (List.perm_insertionSort leYpos _).trans (List.perm_insertionSort leXpos dws)
  · exact pairwise_lex_insertionSort _ (List.sorted_insertionSort leXpos dws)

/-! ## The key-chord `Sequence` type

`utils::Sequence` is referenced by `src/main.rs` and `src/args.rs` but its
definition is not part of the provided source tree, so it is modelled from
the specification (spec section 4.2). -/

/-- Modelled from the spec: the case-insensitive comparison key of a key-name
token (spec: "normalized by case-insensitive alphabetical sort"). -/
def lowerTok (s : String) : List Char := s.data.map Char.toLower

/-- Modelled from the spec: the case-insensitive alphabetical order on
tokens, keyed by the lower-cased character list. -/
def tokLe (a b : String) : Prop := lowerTok a ≤ lowerTok b

instance : DecidableRel tokLe := fun a b =>
  inferInstanceAs (Decidable (lowerTok a ≤ lowerTok b))

instance : IsTotal String tokLe := ⟨fun a b => le_total (lowerTok a) (lowerTok b)⟩

instance : IsTrans String tokLe := ⟨fun _ _ _ h1 h2 => le_trans h1 h2⟩

/-- Modelled from the spec: `utils::Sequence`, an unordered multiset-like
collection of key-name tokens kept case-insensitively sorted. -/
structure Sequence where
  tokens : List String
deriving DecidableEq, Repr

/-- Modelled from the spec: `push` appends the token and re-sorts. -/
def Sequence.push (s : Sequence) (t : String) : Sequence :=
  ⟨List.insertionSort tokLe (s.tokens ++ [t])⟩

/-- Modelled from the spec: `remove` deletes the first exact-string match of
the token (used on key-release). -/
def Sequence.remove (s : Sequence) (t : String) : Sequence :=
  ⟨s.tokens.erase t⟩

/-- Modelled from the spec: `is_started` is true iff more than one token is
currently held. -/
def Sequence.is_started (s : Sequence) : Bool :=
  decide (1 < s.tokens.length)

/-- Modelled from the spec: order-insensitive `Sequence` equality — the
sorted token lists compare equal case-insensitively. -/
def Sequence.eqv (s1 s2 : Sequence) : Prop :=
  s1.tokens.map lowerTok = s2.tokens.map lowerTok

instance : DecidableRel Sequence.eqv := fun s1 s2 =>
  inferInstanceAs (Decidable (s1.tokens.map lowerTok = s2.tokens.map lowerTok))

/-! ## Claim C6: push-then-remove round trip -/

/-- C6: for every normalized `Sequence` (its tokens sorted, the invariant
every `Sequence` built by `new`/`push` maintains) and every token,
`push t` followed by `remove t` restores the original sequence under the
order-insensitive equality. -/
theorem sequence_push_remove_roundtrip (s : Sequence) (t : String)
    (hs : s.tokens.Pairwise tokLe) :
    ((s.push t).remove t).eqv s := by
  unfold Sequence.push Sequence.remove Sequence.eqv
  have hperm : List.Perm (List.insertionSort tokLe (s.tokens ++ [t]))
      (s.tokens ++ [t]) := List.perm_insertionSort tokLe (s.tokens ++ [t])
  have hperm2 : List.Perm ((List.insertionSort tokLe (s.tokens ++ [t])).erase t)
      s.tokens := by
    have h3 := (List.perm_append_singleton t s.tokens).erase t
    rw [List.erase_cons_head] at h3
    exact (hperm.erase t).trans h3
  have hsort1 : (List.insertionSort tokLe (s.tokens ++ [t])).Pairwise tokLe :=
    List.sorted_insertionSort tokLe (s.tokens ++ [t])
  have hsort2 : ((List.insertionSort tokLe (s.tokens ++ [t])).erase t).Pairwise tokLe :=
    hsort1.sublist (List.erase_sublist t _)
  have hms1 : List.Sorted (fun a b : List Char => a ≤ b)
      (((List.insertionSort tokLe (s.tokens ++ [t])).erase t).map lowerTok) :=
    List.pairwise_map.mpr hsort2
  have hms2 : List.Sorted (fun a b : List Char => a ≤ b) (s.tokens.map lowerTok) :=
    List.pairwise_map.mpr hs
  exact List.eq_of_perm_of_sorted (hperm2.map lowerTok) hms1 hms2

/-- Witness for the round-trip law on a concrete sorted sequence. -/
theorem sequence_push_remove_roundtrip_witness :
    ((Sequence.mk ["a", "Control_L"]).push "g").remove "g" |>.eqv ⟨["a", "Control_L"]⟩ :=
  sequence_push_remove_roundtrip ⟨["a", "Control_L"]⟩ "g" (by decide)

/-! ## Selection engine: the key-press transition (from the event loop of `main`) -/

/-- Observable outputs of one engine step: a line printed to standard
output, a window-manager focus action, or a hint redraw. -/
inductive Effect where
  | printLn : String → Effect
  | focusWindow : DesktopWindow → Effect
  | redraw : String → Effect
deriving DecidableEq, Repr

/-- The configuration fields of `AppConfig` consumed by the key-press
branch: the hint alphabet, the configured exit sequences, and print-only
mode. -/
structure AppConfigCore where
  hint_chars : List Char
  exit_keys : List Sequence
  print_only : Bool
deriving Repr

/-- The mutable state of the event loop: the typed hint prefix
(`pressed_keys`) and the currently held chord (`sequence`). -/
structure EngineState where
  pressed_keys : String
  sequence : Sequence
deriving DecidableEq, Repr

/-- Rust `str::contains`: `sub` occurs contiguously in `hay`
(`app_config.hint_chars.contains(kstr)` in the source). -/
def containsSub : List Char → List Char → Bool
  | [], sub => sub == []
  | c :: t, sub => ((c :: t).take sub.length == sub) || containsSub t sub

/-- Rust `str::starts_with`
(`render_windows.keys().any(|k| k.starts_with(&pressed_keys))`). -/
def strStarts (s p : String) : Bool := s.data.take p.data.length == p.data

/-- Modelled from the spec: `utils::remove_last_key` (not in the provided
tree) rolls back the last appended token: if the pressed-prefix ends with
`kstr`, strip that suffix, else leave it unchanged (nothing was appended). -/
def remove_last_key (pressed kstr : String) : String :=
  if pressed.data.drop (pressed.data.length - kstr.data.length) = kstr.data ∧
      kstr.data ≠ [] then
    String.mk (pressed.data.take (pressed.data.length - kstr.data.length))
  else pressed

/-- The `println!("0x\x7b:x\x7d", rw.desktop_window.x_window_id.unwrap_or(0))`
output: the optional native id (an `i32`, printed as its unsigned hex bit
pattern, lower case) with `0` substituted when absent. -/
def formatWindowId (xid : Option Int) : String :=
  "0x" ++ String.mk (Nat.toDigits 16 ((xid.getD 0) % (2 ^ 32)).toNat)

/-- One key-press step of the selection engine (the
`x::Event::KeyPress` branch of the event loop in `src/main.rs`), as a pure
transition: it returns the updated state, whether the loop closes, and the
emitted effects.  `kstr` is the decoded key name and `is_escape` the test
`keysym == XK_Escape`.  The `Sequence` operations are modelled from the
spec (their source is not in the tree); everything else follows
`src/main.rs`.  `dbg!` and log macros write to standard error and are not
modelled; standard output is exactly the `printLn` effect. -/
def handleKeyPress (cfg : AppConfigCore) (render_windows : List (String × DesktopWindow))
    (st : EngineState) (kstr : String) (is_escape : Bool) :
    EngineState × Bool × List Effect :=
  let seq2 := st.sequence.push kstr
  let pressed2 :=
    if containsSub cfg.hint_chars kstr.data then st.pressed_keys ++ kstr
    else st.pressed_keys
  if is_escape || cfg.exit_keys.any (fun e => decide (e.eqv seq2)) then
    (⟨pressed2, seq2⟩, true, [])
  else if seq2.is_started then
    (⟨remove_last_key pressed2 kstr, seq2⟩, false, [])
  else
    match List.lookup pressed2 render_windows with
    | some rw =>
      (⟨pressed2, seq2⟩, true,
        [if cfg.print_only then Effect.printLn (formatWindowId rw.x_window_id)
         else Effect.focusWindow rw])
    | none =>
      if (pressed2 != "") && render_windows.any (fun p => strStarts p.1 pressed2) then
        (⟨pressed2, seq2⟩, false, render_windows.map (fun p => Effect.redraw p.1))
      else
        (⟨remove_last_key pressed2 kstr, seq2⟩, cfg.exit_keys.isEmpty, [])

theorem handleKeyPress_match_eq (cfg : AppConfigCore)
    (render_windows : List (String × DesktopWindow)) (st : EngineState)
    (kstr : String) (rw : DesktopWindow)
    (hexit : cfg.exit_keys.any (fun e => decide (e.eqv (st.sequence.push kstr))) = false)
    (hstart : (st.sequence.push kstr).is_started = false)
    (hfound : List.lookup
      (if containsSub cfg.hint_chars kstr.data then st.pressed_keys ++ kstr
       else st.pressed_keys) render_windows = some rw) :
    handleKeyPress cfg render_windows st kstr false =
      (⟨if containsSub cfg.hint_chars kstr.data then st.pressed_keys ++ kstr
        else st.pressed_keys, st.sequence.push kstr⟩, true,
       [if cfg.print_only then Effect.printLn (formatWindowId rw.x_window_id)
        else Effect.focusWindow rw]) := by
  unfold handleKeyPress
  simp only [hexit, hstart, hfound, Bool.false_or, Bool.false_eq_true, if_false]

/-! ## Claim C7: exact hint match ends the loop with focus or print -/

/-- C7: on a key-press processed while the chord is not started (at most one
token held after the push), with no escape or exit chord, if the pressed
prefix equals an existing hint then the loop closes and the only emitted
effect is focusing that hint's window (default mode) or printing its native
window id to standard output (print-only mode) — no other output on the
success path. -/
theorem selection_exact_match (cfg : AppConfigCore)
    (render_windows : List (String × DesktopWindow)) (st : EngineState)
    (kstr : String) (rw : DesktopWindow)
    (hexit : cfg.exit_keys.any (fun e => decide (e.eqv (st.sequence.push kstr))) = false)
    (hstart : (st.sequence.push kstr).is_started = false)
    (hfound : List.lookup
      (if containsSub cfg.hint_chars kstr.data then st.pressed_keys ++ kstr
       else st.pressed_keys) render_windows = some rw) :
    (handleKeyPress cfg render_windows st kstr false).2.1 = true ∧
    (handleKeyPress cfg render_windows st kstr false).2.2 =
      [if cfg.print_only then Effect.printLn (formatWindowId rw.x_window_id)
       else Effect.focusWindow rw] := by
  rw [handleKeyPress_match_eq cfg render_windows st kstr rw hexit hstart hfound]
  exact ⟨rfl, rfl⟩

/-- Witness for `selection_exact_match`: one window with hint `"a"`,
pressing `a` in default mode focuses it. -/
theorem selection_exact_match_witness :
    (handleKeyPress ⟨['a', 'b'], [], false⟩
      [("a", ⟨7, some 11, (0, 0), (10, 10), false⟩)] ⟨"", ⟨[]⟩⟩ "a" false).2.1 = true ∧
    (handleKeyPress ⟨['a', 'b'], [], false⟩
      [("a", ⟨7, some 11, (0, 0), (10, 10), false⟩)] ⟨"", ⟨[]⟩⟩ "a" false).2.2 =
      [Effect.focusWindow ⟨7, some 11, (0, 0), (10, 10), false⟩] :=
  selection_exact_match ⟨['a', 'b'], [], false⟩
    [("a", ⟨7, some 11, (0, 0), (10, 10), false⟩)] ⟨"", ⟨[]⟩⟩ "a"
    ⟨7, some 11, (0, 0), (10, 10), false⟩ (by decide) (by decide) (by decide)

/-! ## Claim C9: print-only mode with an absent native window id -/

/-- C9: in print-only mode, when the selected window's optional native
window-system id is absent, the engine does not fail: it substitutes `0`,
prints the literal line `0x0` to standard output, and the loop closes. -/
theorem print_only_missing_id (cfg : AppConfigCore)
    (render_windows : List (String × DesktopWindow)) (st : EngineState)
    (kstr : String) (rw : DesktopWindow)
    (hexit : cfg.exit_keys.any (fun e => decide (e.eqv (st.sequence.push kstr))) = false)
    (hstart : (st.sequence.push kstr).is_started = false)
    (hfound : List.lookup
      (if containsSub cfg.hint_chars kstr.data then st.pressed_keys ++ kstr
       else st.pressed_keys) render_windows = some rw)
    (hpo : cfg.print_only = true) (hid : rw.x_window_id = none) :
    (handleKeyPress cfg render_windows st kstr false).2.1 = true ∧
    (handleKeyPress cfg render_windows st kstr false).2.2 =
      [Effect.printLn "0x0"] := by
  rw [handleKeyPress_match_eq cfg render_windows st kstr rw hexit hstart hfound]
  refine ⟨rfl, ?_⟩
  rw [hpo, hid]
  rfl

/-- Witness for `print_only_missing_id`: a window without a native id in
print-only mode prints `0x0`. -/
theorem print_only_missing_id_witness :
    (handleKeyPress ⟨['a', 'b'], [], true⟩
      [("a", ⟨7, none, (0, 0), (10, 10), false⟩)] ⟨"", ⟨[]⟩⟩ "a" false).2.1 = true ∧
    (handleKeyPress ⟨['a', 'b'], [], true⟩
      [("a", ⟨7, none, (0, 0), (10, 10), false⟩)] ⟨"", ⟨[]⟩⟩ "a" false).2.2 =
      [Effect.printLn "0x0"] :=
  print_only_missing_id ⟨['a', 'b'], [], true⟩
    [("a", ⟨7, none, (0, 0), (10, 10), false⟩)] ⟨"", ⟨[]⟩⟩ "a"
    ⟨7, none, (0, 0), (10, 10), false⟩ (by decide) (by decide) (by decide) rfl rfl
